import Mathlib

/-!
Verification of the CVaR (Conditional Value at Risk) expectation converter
(`qiskit/aqua/operators/expectations/cvar_expectation.py`).

The file embeds the operator expression trees the converter rewrites, the
`CVaRExpectation` class itself (construction, `convert`, `compute_variance`),
and the CVaR estimator described by the design document, and proves the
documented properties about them.
-/

namespace Aqua

/-- Combination rules of composite operators. Modelled from the spec: the
`ListOp` subclasses (`SummedOp`, `ComposedOp`, `TensoredOp`, plain `ListOp`)
are imported by the source file but defined elsewhere; the spec treats the
combination rule as an opaque tag carried by each composite node. -/
inductive ComboKind where
  | plain
  | summed
  | composed
  | tensored

/-- Operator expression trees. Modelled from the spec: the operator class
hierarchy (`OperatorBase`, `ListOp`, `OperatorStateFn`, `CVaRMeasurement`) is
imported by the source file but defined elsewhere. Per the spec a Leaf carries
an observable (here the type parameter `P`) and a measurement flag, a
Composite carries a combination rule and an ordered list of children, and a
`CVaRMeasurement` (the spec's RiskMeasurementNode) carries the wrapped
observable and an alpha. In Python `CVaRMeasurement` is a subclass of
`OperatorStateFn` whose measurement flag is always true, so the
`isinstance(op, OperatorStateFn)` test accepts both `stateFn` and
`cvarMeasurement` nodes; `primLeaf` stands for any other operator leaf (for
example a `PrimitiveOp`), which that test rejects. -/
inductive OperatorBase (P : Type) where
  | stateFn (primitive : P) (is_measurement : Bool)
  | cvarMeasurement (primitive : P) (alpha : ℚ)
  | primLeaf (primitive : P)
  | listOp (kind : ComboKind) (oplist : List (OperatorBase P))

variable {P Q : Type}

/-- Evaluation of the Python test `isinstance(op, OperatorStateFn) and
op.is_measurement` on a node: true for a measurement `OperatorStateFn` and
for a `CVaRMeasurement` (a subclass whose measurement flag is always true). -/
def isMeasurementStateFn : OperatorBase P → Bool
  | .stateFn _ m => m
  | .cvarMeasurement _ _ => true
  | _ => false

/-- A node is a leaf when it is not a composite `ListOp`. -/
def isLeaf : OperatorBase P → Bool
  | .listOp _ _ => false
  | _ => true

/-- Modelled from the spec: `ListOp.traverse(fn)` is defined outside the
source file; per the spec it returns a new composite with the same
combination rule whose children are `fn` applied to the original children in
their original order, and leaves non-composites unchanged. -/
def traverse (f : OperatorBase P → OperatorBase P) : OperatorBase P → OperatorBase P
  | .listOp kind l => .listOp kind (l.map f)
  | op => op

mutual

/-- The inner rewriting function of `CVaRExpectation.convert` (source lines
89-94): a measurement `OperatorStateFn` becomes a `CVaRMeasurement` of its
primitive with the configured alpha (this branch also accepts an existing
`CVaRMeasurement`, which Python's `isinstance` test matches, rebuilding it
with the configured alpha); a `ListOp` recurses into its children via
`traverse`; every other node is returned unchanged. -/
def replace_with_cvar (alpha : ℚ) : OperatorBase P → OperatorBase P
  | .stateFn p m => if m then .cvarMeasurement p alpha else .stateFn p m
  | .cvarMeasurement p _ => .cvarMeasurement p alpha
  | .primLeaf p => .primLeaf p
  | .listOp kind l => .listOp kind (replaceWithCvarList alpha l)

/-- Pointwise action of `replace_with_cvar` on a list of children, in order. -/
def replaceWithCvarList (alpha : ℚ) : List (OperatorBase P) → List (OperatorBase P)
  | [] => []
  | t :: ts => replace_with_cvar alpha t :: replaceWithCvarList alpha ts

end

/-- On a composite, `replace_with_cvar` acts exactly as the source writes it:
`operator.traverse(replace_with_cvar)`. -/
theorem replaceWithCvarList_eq_map (alpha : ℚ) (l : List (OperatorBase P)) :
    replaceWithCvarList alpha l = l.map (replace_with_cvar alpha) := by
  induction l with
  | nil => rfl
  | cons t ts ih => simp [replaceWithCvarList, ih]

/-- The `ListOp` case of `replace_with_cvar` is the source's
`operator.traverse(replace_with_cvar)`. -/
theorem replace_with_cvar_listOp_eq_traverse (alpha : ℚ) (kind : ComboKind)
    (l : List (OperatorBase P)) :
    replace_with_cvar alpha (.listOp kind l)
      = traverse (replace_with_cvar alpha) (.listOp kind l) := by
  simp [replace_with_cvar, traverse, replaceWithCvarList_eq_map]

mutual

/-- Number of leaf nodes of a tree. -/
def leafCount : OperatorBase P → Nat
  | .listOp _ l => leafCountList l
  | _ => 1

/-- Total leaf count of a list of trees. -/
def leafCountList : List (OperatorBase P) → Nat
  | [] => 0
  | t :: ts => leafCount t + leafCountList ts

end

mutual

/-- The leaves of a tree, in left-to-right order. -/
def leaves : OperatorBase P → List (OperatorBase P)
  | .listOp _ l => leavesList l
  | op => [op]

/-- Concatenated leaves of a list of trees, in order. -/
def leavesList : List (OperatorBase P) → List (OperatorBase P)
  | [] => []
  | t :: ts => leaves t ++ leavesList ts

end

mutual

/-- The shape of a tree: the composite skeleton with combination rules and
child order kept and every leaf collapsed to a unit leaf. Two trees have the
same shape exactly when they agree on all composite structure. -/
def shape : OperatorBase P → OperatorBase Unit
  | .listOp kind l => .listOp kind (shapeList l)
  | _ => .primLeaf ()

/-- Shapes of a list of trees, in order. -/
def shapeList : List (OperatorBase P) → List (OperatorBase Unit)
  | [] => []
  | t :: ts => shape t :: shapeList ts

end

mutual

/-- Renaming of the primitives of a tree, keeping all structure and flags. -/
def mapPrim (f : P → Q) : OperatorBase P → OperatorBase Q
  | .stateFn p m => .stateFn (f p) m
  | .cvarMeasurement p a => .cvarMeasurement (f p) a
  | .primLeaf p => .primLeaf (f p)
  | .listOp kind l => .listOp kind (mapPrimList f l)

/-- Pointwise `mapPrim` on a list of trees. -/
def mapPrimList (f : P → Q) : List (OperatorBase P) → List (OperatorBase Q)
  | [] => []
  | t :: ts => mapPrim f t :: mapPrimList f ts

end

/-- Induction over operator trees with the composite hypothesis given for
every member of the child list. -/
theorem operator_induction {motive : OperatorBase P → Prop}
    (hsf : ∀ p m, motive (.stateFn p m))
    (hcv : ∀ p a, motive (.cvarMeasurement p a))
    (hpl : ∀ p, motive (.primLeaf p))
    (hop : ∀ kind l, (∀ x ∈ l, motive x) → motive (.listOp kind l)) :
    ∀ t, motive t
  | .stateFn p m => hsf p m
  | .cvarMeasurement p a => hcv p a
  | .primLeaf p => hpl p
  | .listOp kind l => hop kind l (fun x hx =>
      have : sizeOf x < sizeOf (OperatorBase.listOp kind l) := by
        have h1 := List.sizeOf_lt_of_mem hx
        simp only [OperatorBase.listOp.sizeOf_spec]
        omega
      operator_induction hsf hcv hpl hop x)
termination_by t => sizeOf t

/-- Errors raised by the source file. Both of its `raise` sites raise the
Python exception `NotImplementedError`; the constructor argument records the
message (`none` for a bare `raise NotImplementedError`). -/
inductive PyError where
  | notImplementedError (msg : Option String)

variable {Op : Type}

/-- Base expectation converter objects. Modelled from the spec:
`ExpectationBase`, `PauliExpectation` and `AerPauliExpectation` are imported
by the source file but defined elsewhere; each is an object whose capability
is turning an operator into an ordinary expectation tree (its `convert`
method, carried here as an opaque function). `otherExpectation` stands for
any further `ExpectationBase` subclass (for example `MatrixExpectation`). -/
inductive ExpectationBase (Op P : Type) where
  | pauliExpectation (convertFn : Op → OperatorBase P)
  | aerPauliExpectation (convertFn : Op → OperatorBase P)
  | otherExpectation (convertFn : Op → OperatorBase P)

/-- The `convert` method of a base expectation converter: its opaque
tree-building function. -/
def ExpectationBase.convert : ExpectationBase Op P → Op → OperatorBase P
  | .pauliExpectation f, operator => f operator
  | .aerPauliExpectation f, operator => f operator
  | .otherExpectation f, operator => f operator

/-- The state of a constructed `CVaRExpectation`: the stored `alpha` and the
stored base `expectation` converter (source lines 70 and 75). -/
structure CVaRExpectation (Op P : Type) where
  alpha : ℚ
  expectation : ExpectationBase Op P

/-- Constructor `CVaRExpectation.__init__` (source lines 60-75): stores
`alpha` as given, raises `NotImplementedError` if the supplied expectation is
an `AerPauliExpectation`, and substitutes a fresh `PauliExpectation` when the
expectation argument is `None`. The parameter `pauliConvert` is modelled from
the spec: it is the tree-building function of the default `PauliExpectation`,
whose definition is outside the source file. The source performs no
validation of `alpha`. -/
def CVaRExpectation.init (pauliConvert : Op → OperatorBase P) (alpha : ℚ)
    (expectation : Option (ExpectationBase Op P)) :
    Except PyError (CVaRExpectation Op P) :=
  match expectation with
  | some (.aerPauliExpectation _) =>
      .error (.notImplementedError (some "AerPauliExpecation currently not supported."))
  | some e => .ok { alpha := alpha, expectation := e }
  | none => .ok { alpha := alpha, expectation := .pauliExpectation pauliConvert }

/-- `CVaRExpectation.convert` (source lines 77-96): delegates to the stored
base expectation converter and rewrites the resulting tree with
`replace_with_cvar` at the stored alpha. -/
def CVaRExpectation.convert (self : CVaRExpectation Op P) (operator : Op) :
    OperatorBase P :=
  replace_with_cvar self.alpha (self.expectation.convert operator)

/-- `CVaRExpectation.compute_variance` (source lines 98-100): always
`raise NotImplementedError`, with no message and no other behaviour. -/
def CVaRExpectation.compute_variance (_self : CVaRExpectation Op P)
    (_exp_op : OperatorBase P) : Except PyError ℚ :=
  .error (.notImplementedError none)

/-- The spec's leaf-level predicate/transform pair, written from the spec's
words for comparison with the source: if a leaf is a measurement (the
predicate), replace it by a risk measurement node wrapping the leaf's
observable and the configured alpha (the transform); otherwise return the
leaf unchanged. A `cvarMeasurement` is itself a measurement leaf, so the
transform rebuilds it around its own primitive. -/
def specLeafTransform (alpha : ℚ) : OperatorBase P → OperatorBase P
  | .stateFn p m => if m then .cvarMeasurement p alpha else .stateFn p m
  | .cvarMeasurement p _ => .cvarMeasurement p alpha
  | op => op

/-- The alpha stored in a node when it is a `CVaRMeasurement` leaf. -/
def cvarAlphaOf : OperatorBase P → Option ℚ
  | .cvarMeasurement _ a => some a
  | _ => none

/-- The alphas of all `CVaRMeasurement` leaves of a tree, in leaf order. -/
def cvarAlphas (t : OperatorBase P) : List ℚ :=
  (leaves t).filterMap cvarAlphaOf

/-- Total probability mass of a sampled distribution, given as a list of
(outcome value, probability mass) pairs. -/
def massSum (d : List (ℚ × ℚ)) : ℚ :=
  (d.map (fun p => p.2)).sum

/-- Probability-weighted sum of the outcomes of a sampled distribution. -/
def weightedSum (d : List (ℚ × ℚ)) : ℚ :=
  (d.map (fun p => p.1 * p.2)).sum

/-- The plain probability-weighted mean (standard expectation) of a sampled
distribution. -/
def weightedMean (d : List (ℚ × ℚ)) : ℚ :=
  weightedSum d / massSum d

/-- Merging of one (value, mass) pair into an aggregated list: the mass is
added to the existing entry for the same value if there is one, and a new
entry is appended otherwise. -/
def addMass (v m : ℚ) : List (ℚ × ℚ) → List (ℚ × ℚ)
  | [] => [(v, m)]
  | q :: rest => if q.1 = v then (q.1, q.2 + m) :: rest else q :: addMass v m rest

/-- Modelled from the spec: step 1 of the estimator, which is defined outside
the source file — aggregate the distribution by outcome value, summing the
probability masses of duplicate outcomes. -/
def aggregate : List (ℚ × ℚ) → List (ℚ × ℚ)
  | [] => []
  | (v, m) :: rest => addMass v m (aggregate rest)

/-- Insertion of a pair into a list sorted ascending by outcome value. -/
def insertAsc (q : ℚ × ℚ) : List (ℚ × ℚ) → List (ℚ × ℚ)
  | [] => [q]
  | r :: rest => if q.1 ≤ r.1 then q :: r :: rest else r :: insertAsc q rest

/-- Modelled from the spec: step 2 of the estimator — sort the aggregated
pairs ascending by outcome value. -/
def sortAsc : List (ℚ × ℚ) → List (ℚ × ℚ)
  | [] => []
  | q :: rest => insertAsc q (sortAsc rest)

/-- Modelled from the spec: steps 3-4 of the estimator — walk the sorted
pairs from the smallest value upward carrying the cumulative mass `cum`;
while the cumulative mass stays below `alpha` a pair contributes its full
`value * mass`, and the pair at which the cumulative mass first reaches
`alpha` contributes only `value * (alpha - cum)`, the fraction needed to make
the included mass exactly `alpha`. -/
def cvarPartialSum (alpha : ℚ) : ℚ → List (ℚ × ℚ) → ℚ
  | _, [] => 0
  | cum, (v, m) :: rest =>
      if alpha ≤ cum + m then v * (alpha - cum)
      else v * m + cvarPartialSum alpha (cum + m) rest

/-- Error raised by the estimator on an empty distribution. -/
inductive EstimatorError where
  | emptyDistribution

/-- Modelled from the spec: the CVaR estimator `estimate(distribution,
alpha)`, defined outside the source file (it is invoked by the
`CVaRMeasurement` nodes the converter creates) — fail on an empty
distribution, otherwise aggregate, sort ascending, accumulate the worst
`alpha` fraction of the mass, and divide by `alpha` (step 5). -/
def estimate (distribution : List (ℚ × ℚ)) (alpha : ℚ) : Except EstimatorError ℚ :=
  match distribution with
  | [] => .error .emptyDistribution
  | _ => .ok (cvarPartialSum alpha 0 (sortAsc (aggregate distribution)) / alpha)

/-! Helper lemmas about the tree operations. -/

/-- The rewrite of a tree keeps its shape: composites, rules and child order
are untouched. -/
theorem shape_replace_with_cvar (a : ℚ) (t : OperatorBase P) :
    shape (replace_with_cvar a t) = shape t := by
  induction t using operator_induction with
  | hsf p m => cases m <;> simp [replace_with_cvar, shape]
  | hcv p b => rfl
  | hpl p => rfl
  | hop kind l ih =>
      simp only [replace_with_cvar, shape]
      congr 1
      induction l with
      | nil => rfl
      | cons t ts ihl =>
          simp only [replaceWithCvarList, shapeList]
          rw [ih t (by simp), ihl (fun x hx => ih x (by simp [hx]))]

/-- The rewrite of a tree keeps its number of leaves. -/
theorem leafCount_replace_with_cvar (a : ℚ) (t : OperatorBase P) :
    leafCount (replace_with_cvar a t) = leafCount t := by
  induction t using operator_induction with
  | hsf p m => cases m <;> simp [replace_with_cvar, leafCount]
  | hcv p b => rfl
  | hpl p => rfl
  | hop kind l ih =>
      simp only [replace_with_cvar, leafCount]
      induction l with
      | nil => rfl
      | cons t ts ihl =>
          simp only [replaceWithCvarList, leafCountList]
          rw [ih t (by simp), ihl (fun x hx => ih x (by simp [hx]))]

/-- The leaves of a rewritten tree are exactly the leaves of the original
tree, in order, each put through the leaf-level measurement transform. -/
theorem leaves_replace_with_cvar (a : ℚ) (t : OperatorBase P) :
    leaves (replace_with_cvar a t) = (leaves t).map (specLeafTransform a) := by
  induction t using operator_induction with
  | hsf p m => cases m <;> simp [replace_with_cvar, leaves, specLeafTransform]
  | hcv p b => rfl
  | hpl p => rfl
  | hop kind l ih =>
      simp only [replace_with_cvar, leaves]
      induction l with
      | nil => rfl
      | cons t ts ihl =>
          simp only [replaceWithCvarList, leavesList, List.map_append]
          rw [ih t (by simp), ihl (fun x hx => ih x (by simp [hx]))]

/-- Membership of the leaves of a member in the concatenated leaves of a
list of trees. -/
theorem mem_leavesList_of_mem {x : OperatorBase P} {l : List (OperatorBase P)}
    (hx : x ∈ l) {ℓ : OperatorBase P} (hℓ : ℓ ∈ leaves x) : ℓ ∈ leavesList l := by
  induction l with
  | nil => cases hx
  | cons t ts ihl =>
      simp only [leavesList, List.mem_append]
      rcases List.mem_cons.mp hx with h | h
      · exact Or.inl (h ▸ hℓ)
      · exact Or.inr (ihl h)

/-- Renaming primitives commutes with the rewrite: the rewrite inspects only
node kinds and measurement flags, never the primitives themselves. -/
theorem mapPrim_replace_with_cvar (f : P → Q) (a : ℚ) (t : OperatorBase P) :
    mapPrim f (replace_with_cvar a t) = replace_with_cvar a (mapPrim f t) := by
  induction t using operator_induction with
  | hsf p m => cases m <;> simp [replace_with_cvar, mapPrim]
  | hcv p b => rfl
  | hpl p => rfl
  | hop kind l ih =>
      simp only [replace_with_cvar, mapPrim]
      congr 1
      induction l with
      | nil => rfl
      | cons t ts ihl =>
          simp only [replaceWithCvarList, mapPrimList]
          rw [ih t (by simp), ihl (fun x hx => ih x (by simp [hx]))]

/-- Every `CVaRMeasurement` leaf of a rewritten tree carries the alpha the
rewrite was configured with. -/
theorem cvarAlphas_replace_with_cvar {a : ℚ} {t : OperatorBase P} :
    ∀ x ∈ cvarAlphas (replace_with_cvar a t), x = a := by
  intro x hx
  rw [cvarAlphas, leaves_replace_with_cvar, List.filterMap_map] at hx
  rcases List.mem_filterMap.mp hx with ⟨ℓ, _, hval⟩
  cases ℓ with
  | stateFn p m =>
      cases m <;> simp [specLeafTransform, cvarAlphaOf, Function.comp] at hval
      exact hval.symm
  | cvarMeasurement p b =>
      simp [specLeafTransform, cvarAlphaOf, Function.comp] at hval
      exact hval.symm
  | primLeaf p => simp [specLeafTransform, cvarAlphaOf, Function.comp] at hval
  | listOp kind l => simp [specLeafTransform, cvarAlphaOf, Function.comp] at hval

/-! Helper lemmas about the estimator. -/

/-- Unfolding of the total mass of a non-empty distribution. -/
theorem massSum_cons (q : ℚ × ℚ) (rest : List (ℚ × ℚ)) :
    massSum (q :: rest) = q.2 + massSum rest := by
  simp [massSum]

/-- Unfolding of the weighted sum of a non-empty distribution. -/
theorem weightedSum_cons (q : ℚ × ℚ) (rest : List (ℚ × ℚ)) :
    weightedSum (q :: rest) = q.1 * q.2 + weightedSum rest := by
  simp [weightedSum]

/-- Merging a pair adds its mass to the total. -/
theorem massSum_addMass (v m : ℚ) (l : List (ℚ × ℚ)) :
    massSum (addMass v m l) = massSum l + m := by
  induction l with
  | nil => simp [addMass, massSum]
  | cons q rest ih =>
      by_cases h : q.1 = v
      · simp only [addMass, if_pos h, massSum_cons]
        ring
      · simp only [addMass, if_neg h, massSum_cons, ih]
        ring

/-- Merging a pair adds its value-weighted mass to the weighted sum. -/
theorem weightedSum_addMass (v m : ℚ) (l : List (ℚ × ℚ)) :
    weightedSum (addMass v m l) = weightedSum l + v * m := by
  induction l with
  | nil => simp [addMass, weightedSum]
  | cons q rest ih =>
      by_cases h : q.1 = v
      · simp only [addMass, if_pos h, weightedSum_cons]
        rw [h]
        ring
      · simp only [addMass, if_neg h, weightedSum_cons, ih]
        ring

/-- Merging a non-negative mass keeps all masses non-negative. -/
theorem addMass_nonneg {v m : ℚ} {l : List (ℚ × ℚ)} (hm : 0 ≤ m)
    (hl : ∀ p ∈ l, 0 ≤ p.2) : ∀ p ∈ addMass v m l, 0 ≤ p.2 := by
  induction l with
  | nil =>
      intro p hp
      simp only [addMass, List.mem_singleton] at hp
      rw [hp]
      exact hm
  | cons q rest ih =>
      intro p hp
      by_cases h : q.1 = v
      · simp only [addMass, if_pos h] at hp
        rcases List.mem_cons.mp hp with hp | hp
        · have hq : 0 ≤ q.2 := hl q (by simp)
          rw [hp]
          simpa using add_nonneg hq hm
        · exact hl p (List.mem_cons_of_mem q hp)
      · simp only [addMass, if_neg h] at hp
        rcases List.mem_cons.mp hp with hp | hp
        · rw [hp]
          exact hl q (by simp)
        · exact ih (fun r hr => hl r (List.mem_cons_of_mem q hr)) p hp

/-- Aggregation preserves the total mass. -/
theorem massSum_aggregate (d : List (ℚ × ℚ)) : massSum (aggregate d) = massSum d := by
  induction d with
  | nil => rfl
  | cons q rest ih =>
      obtain ⟨v, m⟩ := q
      simp only [aggregate, massSum_addMass, ih, massSum_cons]
      ring

/-- Aggregation preserves the weighted sum. -/
theorem weightedSum_aggregate (d : List (ℚ × ℚ)) :
    weightedSum (aggregate d) = weightedSum d := by
  induction d with
  | nil => rfl
  | cons q rest ih =>
      obtain ⟨v, m⟩ := q
      simp only [aggregate, weightedSum_addMass, ih, weightedSum_cons]
      ring

/-- Aggregation keeps all masses non-negative. -/
theorem aggregate_nonneg {d : List (ℚ × ℚ)} (hd : ∀ p ∈ d, 0 ≤ p.2) :
    ∀ p ∈ aggregate d, 0 ≤ p.2 := by
  induction d with
  | nil => simp [aggregate]
  | cons q rest ih =>
      obtain ⟨v, m⟩ := q
      simp only [aggregate]
      exact addMass_nonneg (hd (v, m) (by simp))
        (ih (fun r hr => hd r (List.mem_cons_of_mem (v, m) hr)))

/-- Insertion produces a permutation of consing. -/
theorem insertAsc_perm (q : ℚ × ℚ) (l : List (ℚ × ℚ)) :
    List.Perm (insertAsc q l) (q :: l) := by
  induction l with
  | nil => rfl
  | cons r rest ih =>
      by_cases h : q.1 ≤ r.1
      · simp [insertAsc, h]
      · simp only [insertAsc, if_neg h]
        exact (ih.cons r).trans (List.Perm.swap q r rest)

/-- Sorting produces a permutation of the input. -/
theorem sortAsc_perm (l : List (ℚ × ℚ)) : List.Perm (sortAsc l) l := by
  induction l with
  | nil => rfl
  | cons q rest ih => exact (insertAsc_perm q (sortAsc rest)).trans (ih.cons q)

/-- Sorting preserves the total mass. -/
theorem massSum_sortAsc (l : List (ℚ × ℚ)) : massSum (sortAsc l) = massSum l :=
  List.Perm.sum_eq ((sortAsc_perm l).map (fun p => p.2))

/-- Sorting preserves the weighted sum. -/
theorem weightedSum_sortAsc (l : List (ℚ × ℚ)) :
    weightedSum (sortAsc l) = weightedSum l :=
  List.Perm.sum_eq ((sortAsc_perm l).map (fun p => p.1 * p.2))

/-- Sorting keeps all masses non-negative. -/
theorem sortAsc_nonneg {l : List (ℚ × ℚ)} (hl : ∀ p ∈ l, 0 ≤ p.2) :
    ∀ p ∈ sortAsc l, 0 ≤ p.2 :=
  fun p hp => hl p ((sortAsc_perm l).mem_iff.mp hp)

/-- A distribution with non-negative masses has a non-negative total mass. -/
theorem massSum_nonneg {l : List (ℚ × ℚ)} (hl : ∀ p ∈ l, 0 ≤ p.2) :
    0 ≤ massSum l := by
  induction l with
  | nil => simp [massSum]
  | cons q rest ih =>
      have h1 := hl q (by simp)
      have h2 := ih (fun r hr => hl r (List.mem_cons_of_mem q hr))
      rw [massSum_cons]
      linarith

/-- A distribution with non-negative masses and zero total mass has zero
weighted sum. -/
theorem weightedSum_eq_zero {l : List (ℚ × ℚ)} (hl : ∀ p ∈ l, 0 ≤ p.2)
    (hz : massSum l = 0) : weightedSum l = 0 := by
  induction l with
  | nil => rfl
  | cons q rest ih =>
      have h1 : 0 ≤ q.2 := hl q (by simp)
      have hrest_nn : ∀ p ∈ rest, 0 ≤ p.2 := fun r hr => hl r (List.mem_cons_of_mem q hr)
      have h2 : 0 ≤ massSum rest := massSum_nonneg hrest_nn
      rw [massSum_cons] at hz
      have hq : q.2 = 0 := by linarith
      have hr0 : massSum rest = 0 := by linarith
      rw [weightedSum_cons, hq, ih hrest_nn hr0]
      ring

/-- When the quantile equals the whole remaining mass, the partial
accumulation includes every pair in full: the boundary pair's partial
fraction is then exactly its own mass, and all pairs beyond it carry zero
mass. -/
theorem cvarPartialSum_total {A : ℚ} :
    ∀ (l : List (ℚ × ℚ)) (cum : ℚ), (∀ p ∈ l, 0 ≤ p.2) →
      cum + massSum l = A → cvarPartialSum A cum l = weightedSum l := by
  intro l
  induction l with
  | nil => intro cum _ _; rfl
  | cons q rest ih =>
      intro cum hnn hsum
      obtain ⟨v, m⟩ := q
      have hm : 0 ≤ m := hnn (v, m) (by simp)
      have hrest_nn : ∀ p ∈ rest, 0 ≤ p.2 :=
        fun r hr => hnn r (List.mem_cons_of_mem (v, m) hr)
      have hrest : 0 ≤ massSum rest := massSum_nonneg hrest_nn
      simp only [massSum_cons] at hsum
      by_cases h : A ≤ cum + m
      · have hms : massSum rest = 0 := by linarith
        have hmA : m = A - cum := by linarith
        have hws := weightedSum_eq_zero hrest_nn hms
        simp only [cvarPartialSum, if_pos h, weightedSum_cons, hws]
        rw [hmA]
        ring
      · have hstep : (cum + m) + massSum rest = A := by linarith
        simp only [cvarPartialSum, if_neg h, weightedSum_cons]
        rw [ih (cum + m) hrest_nn hstep]

/-- Identity of the pointwise rewrite on a list all of whose members are left
fixed. -/
theorem replaceWithCvarList_id {a : ℚ} {l : List (OperatorBase P)}
    (hid : ∀ x ∈ l, replace_with_cvar a x = x) : replaceWithCvarList a l = l := by
  induction l with
  | nil => rfl
  | cons t ts ihl =>
      simp only [replaceWithCvarList]
      rw [hid t (by simp), ihl (fun x hx => hid x (by simp [hx]))]

/-! Claims. -/

/-- Claim C1: for every operator, `convert` first delegates to the configured
base converter and then returns its tree rewritten by `replace_with_cvar`:
the leaves of the result are exactly the leaves of the base tree, in order,
with every measurement leaf replaced by a `CVaRMeasurement` wrapping that
leaf's primitive and the configured alpha (the leaf-level transform
`specLeafTransform`), and every `CVaRMeasurement` in the result carries this
same alpha. -/
theorem convert_delegates_then_replaces_measurements
    (self : CVaRExpectation Op P) (operator : Op) :
    self.convert operator
        = replace_with_cvar self.alpha (self.expectation.convert operator) ∧
    leaves (self.convert operator)
        = (leaves (self.expectation.convert operator)).map
            (specLeafTransform self.alpha) ∧
    cvarAlphas (self.convert operator)
        = List.replicate (cvarAlphas (self.convert operator)).length self.alpha := by
  refine ⟨rfl, ?_, ?_⟩
  · exact leaves_replace_with_cvar self.alpha (self.expectation.convert operator)
  · exact List.eq_replicate_length.mpr
      (fun b hb => cvarAlphas_replace_with_cvar b hb)

/-- Claim C2: constructing the converter with an `AerPauliExpectation` base
converter fails — the constructor returns the construction-time error (the
source raises `NotImplementedError` with this message) and hence never an
instance. -/
theorem init_rejects_aer_pauli (pauliConvert : Op → OperatorBase P) (alpha : ℚ)
    (f : Op → OperatorBase P) :
    CVaRExpectation.init pauliConvert alpha (some (.aerPauliExpectation f))
      = .error (.notImplementedError
          (some "AerPauliExpecation currently not supported.")) := rfl

/-- Claim C3: for every converter state and every tree, `compute_variance`
raises `NotImplementedError` regardless of the tree's shape; it never returns
a usable result. -/
theorem compute_variance_always_fails (self : CVaRExpectation Op P)
    (exp_op : OperatorBase P) :
    self.compute_variance exp_op = .error (.notImplementedError none) := rfl

/-- Claim C4 counterexample: constructing with `alpha = 2`, which is outside
(0,1], does not fail — it returns a converter instance configured with
`alpha = 2`, so the claim that such a construction always fails validation is
false on the code. -/
theorem init_accepts_out_of_range_alpha :
    CVaRExpectation.init (fun _ : ℕ => OperatorBase.primLeaf (0 : ℕ)) 2 none
      = .ok { alpha := 2,
              expectation := .pauliExpectation
                (fun _ => OperatorBase.primLeaf 0) } := rfl

/-- Claim C4 (amended): construction performs no validation of `alpha` at
all — for every alpha, including values outside (0,1], and every base
converter the constructor accepts, it returns a converter instance storing
that alpha unchanged. -/
theorem init_never_validates_alpha (pauliConvert : Op → OperatorBase P)
    (alpha : ℚ) (f : Op → OperatorBase P) :
    CVaRExpectation.init pauliConvert alpha none
        = .ok { alpha := alpha, expectation := .pauliExpectation pauliConvert } ∧
    CVaRExpectation.init pauliConvert alpha (some (.pauliExpectation f))
        = .ok { alpha := alpha, expectation := .pauliExpectation f } ∧
    CVaRExpectation.init pauliConvert alpha (some (.otherExpectation f))
        = .ok { alpha := alpha, expectation := .otherExpectation f } :=
  ⟨rfl, rfl, rfl⟩

/-- Claim C5: the rewriting step of `convert` preserves tree structure — the
rewritten tree has the same number of leaves, and the same shape: every
composite keeps its combination rule and its children in their original
order. -/
theorem replace_with_cvar_preserves_structure (a : ℚ) (t : OperatorBase P) :
    leafCount (replace_with_cvar a t) = leafCount t ∧
    shape (replace_with_cvar a t) = shape t :=
  ⟨leafCount_replace_with_cvar a t, shape_replace_with_cvar a t⟩

/-- Claim C6: a leaf that is not a measurement `OperatorStateFn` is returned
by the rewriting step itself, unchanged. -/
theorem replace_with_cvar_fixes_nonmeasurement_leaf (a : ℚ)
    (t : OperatorBase P) (hleaf : isLeaf t = true)
    (hnm : isMeasurementStateFn t = false) :
    replace_with_cvar a t = t := by
  cases t with
  | stateFn p m =>
      cases m
      · rfl
      · exact absurd hnm (by simp [isMeasurementStateFn])
  | cvarMeasurement p b => exact absurd hnm (by simp [isMeasurementStateFn])
  | primLeaf p => rfl
  | listOp kind l => exact absurd hleaf (by simp [isLeaf])

/-- Concrete instance of claim C6: a plain primitive leaf is left unchanged
by the rewriting step. -/
theorem replace_with_cvar_fixes_nonmeasurement_leaf_witness :
    isLeaf (OperatorBase.primLeaf (0 : ℕ)) = true ∧
    isMeasurementStateFn (OperatorBase.primLeaf (0 : ℕ)) = false ∧
    replace_with_cvar (1/2) (OperatorBase.primLeaf (0 : ℕ))
      = OperatorBase.primLeaf 0 :=
  ⟨rfl, rfl,
    replace_with_cvar_fixes_nonmeasurement_leaf (1/2)
      (OperatorBase.primLeaf 0) rfl rfl⟩

/-- Claim C7: on a tree none of whose leaves is a measurement, the rewriting
step is the identity — the result is structurally identical to the input,
with the same leaf nodes. -/
theorem replace_with_cvar_id_of_no_measurements (a : ℚ) (t : OperatorBase P)
    (h : ∀ x ∈ leaves t, isMeasurementStateFn x = false) :
    replace_with_cvar a t = t := by
  induction t using operator_induction with
  | hsf p m =>
      have hm := h (.stateFn p m) (by simp [leaves])
      simp only [isMeasurementStateFn] at hm
      simp [replace_with_cvar, hm]
  | hcv p b =>
      have hm := h (.cvarMeasurement p b) (by simp [leaves])
      simp [isMeasurementStateFn] at hm
  | hpl p => rfl
  | hop kind l ih =>
      simp only [replace_with_cvar]
      congr 1
      exact replaceWithCvarList_id (fun x hx =>
        ih x hx (fun y hy => h y (mem_leavesList_of_mem hx hy)))

/-- Concrete instance of claim C7: a summed composite of a primitive leaf and
a non-measurement state function is returned unchanged. -/
theorem replace_with_cvar_id_of_no_measurements_witness :
    replace_with_cvar (1/2)
        (OperatorBase.listOp .summed
          [OperatorBase.primLeaf (0 : ℕ), OperatorBase.stateFn 1 false])
      = OperatorBase.listOp .summed
          [OperatorBase.primLeaf 0, OperatorBase.stateFn 1 false] :=
  replace_with_cvar_id_of_no_measurements (1/2) _ (by decide)

/-- Claim C8: construction with the base converter argument omitted (`None`)
succeeds and stores the default `PauliExpectation` as the base converter. -/
theorem init_defaults_to_pauli (pauliConvert : Op → OperatorBase P)
    (alpha : ℚ) :
    CVaRExpectation.init pauliConvert alpha none
      = .ok { alpha := alpha,
              expectation := .pauliExpectation pauliConvert } := rfl

/-- Claim C9: on every valid (non-empty, non-negative, normalized) sampled
distribution, the estimator at alpha = 1 returns the plain
probability-weighted mean of the distribution. -/
theorem estimate_alpha_one_eq_mean (d : List (ℚ × ℚ)) (hne : d ≠ [])
    (hnn : ∀ p ∈ d, 0 ≤ p.2) (hsum : massSum d = 1) :
    estimate d 1 = .ok (weightedMean d) := by
  cases d with
  | nil => exact absurd rfl hne
  | cons q rest =>
      have hl_nn : ∀ p ∈ sortAsc (aggregate (q :: rest)), 0 ≤ p.2 :=
        sortAsc_nonneg (aggregate_nonneg hnn)
      have hl_sum : (0 : ℚ) + massSum (sortAsc (aggregate (q :: rest))) = 1 := by
        rw [massSum_sortAsc, massSum_aggregate, hsum]
        ring
      have hkey := cvarPartialSum_total (sortAsc (aggregate (q :: rest))) 0
        hl_nn hl_sum
      simp only [estimate]
      rw [hkey, weightedSum_sortAsc, weightedSum_aggregate, weightedMean, hsum]

/-- Concrete instance of claim C9: on the normalized distribution with mass 0
at the value 0 and full mass at the value 5, the estimator at alpha = 1
returns the plain mean. -/
theorem estimate_alpha_one_eq_mean_witness :
    ([((0 : ℚ), (0 : ℚ)), ((5 : ℚ), (1 : ℚ))] ≠ ([] : List (ℚ × ℚ))) ∧
    (∀ p ∈ [((0 : ℚ), (0 : ℚ)), ((5 : ℚ), (1 : ℚ))], 0 ≤ p.2) ∧
    massSum [((0 : ℚ), (0 : ℚ)), ((5 : ℚ), (1 : ℚ))] = 1 ∧
    estimate [((0 : ℚ), (0 : ℚ)), ((5 : ℚ), (1 : ℚ))] 1
      = .ok (weightedMean [((0 : ℚ), (0 : ℚ)), ((5 : ℚ), (1 : ℚ))]) :=
  ⟨by simp, by simp, by simp [massSum],
    estimate_alpha_one_eq_mean _ (by simp) (by simp) (by simp [massSum])⟩

/-- Claim C10: `convert` itself never fails — it is a total function equal to
the rewrite of whatever tree the base converter yields — and it performs no
check of any property of the observables: renaming every primitive of the
base tree commutes with the rewriting step, so trees over arbitrary
(including non-diagonal) observables are rewritten and returned exactly like
any others. -/
theorem convert_total_and_primitive_agnostic :
    (∀ (self : CVaRExpectation Op P) (operator : Op),
        self.convert operator
          = replace_with_cvar self.alpha (self.expectation.convert operator)) ∧
    (∀ (f : P → Q) (a : ℚ) (t : OperatorBase P),
        mapPrim f (replace_with_cvar a t) = replace_with_cvar a (mapPrim f t)) :=
  ⟨fun _ _ => rfl, fun f a t => mapPrim_replace_with_cvar f a t⟩

end Aqua

